/-
Verification of the studydeck spaced-repetition core.

The numeric domain of the TypeScript source (JS numbers used as exact
decimals in the SM-2 formulas) is embedded as ℚ; timestamps are
milliseconds since epoch (ℕ); day arithmetic uses 86400000 ms days.
`Math.round` is embedded as `jsRound x = ⌊x + 1/2⌋`, which matches the
JS semantics of rounding half toward +∞.
-/
import Mathlib

/-! ## SM-2 scheduling engine (src: spaced-repetition service, `calculateSM2`) -/

/-- JS `Math.round`: round half up, i.e. `⌊x + 1/2⌋`. -/
def jsRound (x : ℚ) : ℤ := ⌊x + 1/2⌋

/-- Minimum ease factor as defined by SM-2 (`MIN_EASE_FACTOR = 1.3`). -/
def MIN_EASE_FACTOR : ℚ := 13/10

/-- Default ease factor for new cards (`DEFAULT_EASE_FACTOR = 2.5`). -/
def DEFAULT_EASE_FACTOR : ℚ := 5/2

/-- `quality = Math.max(0, Math.min(5, Math.round(quality)))`. -/
def clampQuality (q : ℚ) : ℤ := max 0 (min 5 (jsRound q))

/-- The ease-factor update
`Math.max(MIN_EASE_FACTOR, easeFactor + (0.1 - (5 - quality) * (0.08 + (5 - quality) * 0.02)))`
applied to the already clamped quality `q`. -/
def newEaseFactorOf (easeFactor : ℚ) (q : ℤ) : ℚ :=
  max MIN_EASE_FACTOR
    (easeFactor + (1/10 - (5 - (q : ℚ)) * (8/100 + (5 - (q : ℚ)) * (2/100))))

/-- `Math.round(x * 100) / 100`: round to 2 decimal places. -/
def roundTo2 (x : ℚ) : ℚ := (jsRound (x * 100) : ℚ) / 100

/-- Input of `calculateSM2` (interface `SM2Input`). -/
structure SM2Input where
  quality : ℚ
  repetitions : ℕ
  easeFactor : ℚ
  interval : ℤ
deriving DecidableEq, Repr

/-- Output of `calculateSM2` (interface `SM2Result`, without the derived
`nextReviewDate`, which is `startOfDay (now + interval days)`). -/
structure SM2Result where
  repetitions : ℕ
  easeFactor : ℚ
  interval : ℤ
deriving DecidableEq, Repr

/-- Shallow embedding of `calculateSM2` from the spaced-repetition service. -/
def calculateSM2 (input : SM2Input) : SM2Result :=
  let q := clampQuality input.quality
  let newEaseFactor := newEaseFactorOf input.easeFactor q
  if q < 3 then
    { repetitions := 0
      easeFactor := roundTo2 newEaseFactor
      interval := 1 }
  else
    let repetitions := input.repetitions + 1
    { repetitions := repetitions
      easeFactor := roundTo2 newEaseFactor
      interval :=
        if repetitions = 1 then 1
        else if repetitions = 2 then 6
        else jsRound ((input.interval : ℚ) * newEaseFactor) }

/-! ## Day arithmetic and `isDue` (src: spaced-repetition service) -/

/-- Milliseconds per day. -/
def msPerDay : ℕ := 86400000

/-- `setHours(0, 0, 0, 0)`: start of the day containing timestamp `t`. -/
def startOfDay (t : ℕ) : ℕ := t - t % msPerDay

/-- `setHours(23, 59, 59, 999)`: the last millisecond of the day containing
`t`. -/
def endOfDay (t : ℕ) : ℕ := startOfDay t + (msPerDay - 1)

/-- Shallow embedding of `isDue`: the source reads the clock (`new Date()`),
sets it to the end of the current day, and compares; the clock value is the
explicit parameter `now` here. -/
def isDue (nextReviewAt now : ℕ) : Bool := decide (nextReviewAt ≤ endOfDay now)

/-- `nextReviewDate` as computed by `calculateSM2`: today plus `interval`
days, normalized to start of day. -/
def nextReviewDate (now : ℕ) (interval : ℤ) : ℕ :=
  startOfDay ((now : ℤ) + interval * (msPerDay : ℤ)).toNat

/-! ## Retention (src: stats service, `getUserStats`) -/

/-- The count of reviews the stats service counts as successful
(`quality: { gte: 3 }`). -/
def successfulReviews (qualities : List ℤ) : ℕ :=
  (qualities.filter (fun q => decide (3 ≤ q))).length

/-- `averageRetention` as computed by `getUserStats`:
`totalReviews > 0 ? Math.round((successfulReviews / totalReviews) * 100) : 0`. -/
def averageRetention (qualities : List ℤ) : ℤ :=
  if 0 < qualities.length then
    jsRound (((successfulReviews qualities : ℚ) / (qualities.length : ℚ)) * 100)
  else 0

/-! ## Streaks (src: stats service, `calculateStreaks`)

Calendar dates are embedded as day numbers (ℤ). `dates` stands for the
source's `uniqueDates`: the deduplicated session-start dates sorted
descending. -/

/-- The current-streak loop: how many further dates continue the
consecutive-day chain, each exactly one day before the previous one. -/
def streakRun (prev : ℤ) : List ℤ → ℕ
  | [] => 0
  | d :: rest => if prev - d = 1 then 1 + streakRun d rest else 0

/-- The longest-streak loop, carrying the source's `longestStreak` and
`tempStreak` accumulators. -/
def longestLoop (prev : ℤ) (longest temp : ℕ) : List ℤ → ℕ × ℕ
  | [] => (longest, temp)
  | d :: rest =>
    if prev - d = 1 then longestLoop d longest (temp + 1) rest
    else longestLoop d (max longest temp) 1 rest

/-- Shallow embedding of `calculateStreaks` (result:
`(currentStreak, longestStreak)`). -/
def calculateStreaks (dates : List ℤ) (today : ℤ) : ℕ × ℕ :=
  match dates with
  | [] => (0, 0)
  | d0 :: rest =>
    let currentStreak := if d0 = today ∨ d0 = today - 1 then 1 + streakRun d0 rest else 0
    let p := longestLoop d0 0 1 rest
    (currentStreak, max (max p.1 p.2) currentStreak)

/-- Spec side (for refinement): the maximal consecutive-day run lengths of a
date list, given the current run has length `cur` and last date `prev`. -/
def runsFrom (prev : ℤ) (cur : ℕ) : List ℤ → List ℕ
  | [] => [cur]
  | d :: rest =>
    if prev - d = 1 then runsFrom d (cur + 1) rest else cur :: runsFrom d 1 rest

/-- Spec side (for refinement): the maximum consecutive-day run length over
the whole date list. -/
def maxRun : List ℤ → ℕ
  | [] => 0
  | d :: rest => (runsFrom d 1 rest).foldr max 0

/-! ## Due-set builder (src: deck service, `getDueCards`) -/

/-- A card as read by `getDueCards`; the pool passed to the embedding stands
for the cards of the requested deck subtree. -/
structure PoolCard where
  id : ℕ
  repetitions : ℕ
  nextReviewAt : ℕ
  createdAt : ℕ
deriving DecidableEq, Repr

/-- Insertion into a list sorted ascending by `key`. -/
def insertByKey (key : PoolCard → ℕ) (c : PoolCard) : List PoolCard → List PoolCard
  | [] => [c]
  | d :: ds => if key d ≤ key c then d :: insertByKey key c ds else c :: d :: ds

/-- Ascending sort by `key`, modelling a prisma `orderBy ... asc` read. -/
def sortByKey (key : PoolCard → ℕ) : List PoolCard → List PoolCard
  | [] => []
  | c :: cs => insertByKey key c (sortByKey key cs)

/-- The new-card query: `repetitions: 0`, `orderBy: createdAt asc`,
`take: Math.floor(limit / 3)`. -/
def newCardsOf (pool : List PoolCard) (limit : ℕ) : List PoolCard :=
  (sortByKey PoolCard.createdAt
    (pool.filter (fun c => decide (c.repetitions = 0)))).take (limit / 3)

/-- The due-card query: `repetitions: { gt: 0 }`, `nextReviewAt: { lte: now }`
with `now` set to the end of today, `orderBy: nextReviewAt asc`,
`take: limit - newCards.length`. -/
def dueCardsOf (pool : List PoolCard) (limit : ℕ) (now : ℕ) (newCount : ℕ) :
    List PoolCard :=
  (sortByKey PoolCard.nextReviewAt
    (pool.filter (fun c =>
      decide (0 < c.repetitions ∧ c.nextReviewAt ≤ endOfDay now)))).take
    (limit - newCount)

/-- The JS destructuring swap `[a[i], a[j]] = [a[j], a[i]]` on a list. -/
def listSwap {α : Type} (l : List α) (i j : ℕ) : List α :=
  match l[i]?, l[j]? with
  | some a, some b => (l.set i b).set j a
  | _, _ => l

/-- The Fisher-Yates loop, from index `i` down to 1; at index `i` the code
draws `j = Math.floor(Math.random() * (i + 1))`, modelled as
`rand i % (i + 1)` for an injected draw sequence `rand`. -/
def shuffleGo {α : Type} (rand : ℕ → ℕ) : ℕ → List α → List α
  | 0, l => l
  | i + 1, l => shuffleGo rand i (listSwap l (i + 1) (rand (i + 1) % (i + 2)))

/-- `shuffleArray` with the random draws injected. -/
def shuffleArray {α : Type} (rand : ℕ → ℕ) (l : List α) : List α :=
  shuffleGo rand (l.length - 1) l

/-- Shallow embedding of `getDueCards`: select new cards, then due cards
capped by the remaining limit, then shuffle the concatenation. -/
def getDueCards (pool : List PoolCard) (limit : ℕ) (now : ℕ) (rand : ℕ → ℕ) :
    List PoolCard :=
  let newCards := newCardsOf pool limit
  let dueCards := dueCardsOf pool limit now newCards.length
  shuffleArray rand (newCards ++ dueCards)

/-- A pool with 2 new cards and 10 due cards (due at time 0). -/
def examplePool : List PoolCard :=
  [⟨1, 0, 0, 5⟩, ⟨2, 0, 0, 3⟩,
   ⟨11, 1, 0, 0⟩, ⟨12, 2, 0, 0⟩, ⟨13, 3, 0, 0⟩, ⟨14, 1, 0, 0⟩, ⟨15, 4, 0, 0⟩,
   ⟨16, 1, 0, 0⟩, ⟨17, 2, 0, 0⟩, ⟨18, 5, 0, 0⟩, ⟨19, 1, 0, 0⟩, ⟨20, 6, 0, 0⟩]

/-! ## Review recording and reset (src: card service) -/

/-- The card scheduling columns `reviewCard` and `resetCard` touch. -/
structure CardState where
  easeFactor : ℚ
  interval : ℤ
  repetitions : ℕ
  nextReviewAt : ℕ
  lastReviewAt : Option ℕ
deriving DecidableEq, Repr

/-- An immutable `CardReview` row as `reviewCard` creates it. -/
structure ReviewRecord where
  quality : ℚ
  previousInterval : ℤ
  previousEaseFactor : ℚ
  newInterval : ℤ
  newEaseFactor : ℚ
deriving DecidableEq, Repr

/-- The slice of the store one review touches: the card's scheduling state
and the append-only review table. -/
structure DBState where
  card : CardState
  reviews : List ReviewRecord
deriving DecidableEq, Repr

/-- The review record `reviewCard` inserts (`prisma.cardReview.create`). -/
def reviewRecordOf (card : CardState) (quality : ℚ) : ReviewRecord :=
  let sm2 := calculateSM2 ⟨quality, card.repetitions, card.easeFactor, card.interval⟩
  { quality := quality
    previousInterval := card.interval
    previousEaseFactor := card.easeFactor
    newInterval := sm2.interval
    newEaseFactor := sm2.easeFactor }

/-- The card update `reviewCard` performs (`prisma.card.update`). -/
def updatedCardOf (card : CardState) (quality : ℚ) (now : ℕ) : CardState :=
  let sm2 := calculateSM2 ⟨quality, card.repetitions, card.easeFactor, card.interval⟩
  { easeFactor := sm2.easeFactor
    interval := sm2.interval
    repetitions := sm2.repetitions
    nextReviewAt := nextReviewDate now sm2.interval
    lastReviewAt := some now }

/-- `reviewCard` issues its two store writes in order — first
`prisma.cardReview.create`, then `prisma.card.update` — as two separate calls
with no enclosing transaction. `stepsCompleted` is how many of the two writes
committed before a storage failure interrupted the sequence (2 = no
failure). -/
def reviewCardUpTo (db : DBState) (quality : ℚ) (now : ℕ) (stepsCompleted : ℕ) :
    DBState :=
  let db1 :=
    if 1 ≤ stepsCompleted then
      { db with reviews := db.reviews ++ [reviewRecordOf db.card quality] }
    else db
  if 2 ≤ stepsCompleted then { db1 with card := updatedCardOf db.card quality now }
  else db1

/-- A failure-free run of `reviewCard`. -/
def reviewCard (db : DBState) (quality : ℚ) (now : ℕ) : DBState :=
  reviewCardUpTo db quality now 2

/-- The scheduling fields `createCard` writes for a fresh card. -/
def freshCardState (now : ℕ) : CardState :=
  { easeFactor := DEFAULT_EASE_FACTOR
    interval := 0
    repetitions := 0
    nextReviewAt := now
    lastReviewAt := none }

/-- Shallow embedding of `resetCard`: an unconditional update of the
scheduling fields to the fresh-card defaults; the review table is not
touched. -/
def resetCard (db : DBState) (now : ℕ) : DBState :=
  { card := freshCardState now
    reviews := db.reviews }

/-! ## Helper lemmas for the SM-2 engine -/

/-- Both branches of `calculateSM2` return the rounded updated ease factor. -/
theorem calculateSM2_easeFactor (input : SM2Input) :
    (calculateSM2 input).easeFactor =
      roundTo2 (newEaseFactorOf input.easeFactor (clampQuality input.quality)) := by
  simp only [calculateSM2]
  split <;> rfl

/-- The ease-factor update never goes below the 1.3 floor. -/
theorem min_ease_le_newEaseFactorOf (ef : ℚ) (q : ℤ) :
    MIN_EASE_FACTOR ≤ newEaseFactorOf ef q :=
  le_max_left _ _

/-- Rounding to two decimals preserves the 1.3 floor: `1.3 * 100 = 130` is an
integer, so `⌊100 x + 1/2⌋ ≥ 130` whenever `x ≥ 1.3`. -/
theorem roundTo2_min_ease {x : ℚ} (h : MIN_EASE_FACTOR ≤ x) :
    MIN_EASE_FACTOR ≤ roundTo2 x := by
  have h1 : (130 : ℤ) ≤ jsRound (x * 100) := by
    rw [jsRound, Int.le_floor]
    rw [MIN_EASE_FACTOR] at h
    push_cast
    nlinarith
  rw [roundTo2, MIN_EASE_FACTOR, show (13 : ℚ) / 10 = 130 / 100 by norm_num]
  gcongr
  exact_mod_cast h1

example : calculateSM2 ⟨5, 0, 5/2, 0⟩ = ⟨1, 26/10, 1⟩ := by
  simp [calculateSM2, clampQuality, jsRound, newEaseFactorOf, roundTo2, MIN_EASE_FACTOR]
  norm_num
example : calculateSM2 ⟨5, 1, 26/10, 1⟩ = ⟨2, 27/10, 6⟩ := by
  simp [calculateSM2, clampQuality, jsRound, newEaseFactorOf, roundTo2, MIN_EASE_FACTOR]
  norm_num
example : calculateSM2 ⟨5, 2, 27/10, 6⟩ = ⟨3, 28/10, 17⟩ := by
  simp [calculateSM2, clampQuality, jsRound, newEaseFactorOf, roundTo2, MIN_EASE_FACTOR]
  norm_num
example : calculateSM2 ⟨0, 7, 2, 30⟩ = ⟨0, 13/10, 1⟩ := by
  simp [calculateSM2, clampQuality, jsRound, newEaseFactorOf, roundTo2, MIN_EASE_FACTOR]
  norm_num

/-! ## Claim theorems C1 - C3 -/

/-- C1: for every input state, `calculateSM2` returns an ease factor equal to
`max(1.3, EF + (0.1 - (5 - q) * (0.08 + (5 - q) * 0.02)))` computed from the
pre-update `EF` with `q` the rounded-then-clamped quality, rounded to two
decimal places, and this returned ease factor is always at least `1.3`,
including on failed reviews and after the rounding. -/
theorem C1_easeFactor_formula_and_floor (input : SM2Input) :
    (calculateSM2 input).easeFactor =
      roundTo2 (max (13/10)
        (input.easeFactor +
          (1/10 - (5 - (clampQuality input.quality : ℚ)) *
            (8/100 + (5 - (clampQuality input.quality : ℚ)) * (2/100))))) ∧
    (13 : ℚ) / 10 ≤ (calculateSM2 input).easeFactor := by
  constructor
  · rw [calculateSM2_easeFactor]
    rfl
  · rw [calculateSM2_easeFactor]
    exact roundTo2_min_ease (min_ease_le_newEaseFactorOf _ _)

/-- C2: whenever the rounded-then-clamped quality is below 3, `calculateSM2`
resets `repetitions` to 0 and forces `interval` to 1 whatever the prior state
was; out-of-range quality inputs are silently clamped into `[0, 5]`
(rounded first, then clamped), not rejected. -/
theorem C2_failure_resets_and_quality_clamped (input : SM2Input) :
    (clampQuality input.quality < 3 →
      (calculateSM2 input).repetitions = 0 ∧ (calculateSM2 input).interval = 1) ∧
    0 ≤ clampQuality input.quality ∧ clampQuality input.quality ≤ 5 ∧
    clampQuality input.quality = max 0 (min 5 (jsRound input.quality)) := by
  refine ⟨fun h => ?_, le_max_left _ _, ?_, rfl⟩
  · simp only [calculateSM2, if_pos h]
    exact ⟨by trivial, by trivial⟩
  · exact max_le (by norm_num) (min_le_left _ _)

/-- C3: on success (clamped quality at least 3) `calculateSM2` increments
`repetitions` and sets the interval to 1 / 6 / `round(oldInterval * EF')`
according to the new repetition count; from a fresh card, three reviews with
quality 5 yield the intervals 1, 6, `round(6 * EF') = 17` in order. -/
theorem C3_success_interval_progression (input : SM2Input) :
    (3 ≤ clampQuality input.quality →
      (calculateSM2 input).repetitions = input.repetitions + 1 ∧
      (calculateSM2 input).interval =
        (if input.repetitions + 1 = 1 then 1
         else if input.repetitions + 1 = 2 then 6
         else jsRound ((input.interval : ℚ) *
           newEaseFactorOf input.easeFactor (clampQuality input.quality)))) ∧
    (calculateSM2 ⟨5, 0, DEFAULT_EASE_FACTOR, 0⟩).interval = 1 ∧
    (calculateSM2 ⟨5, 1, 26/10, 1⟩).interval = 6 ∧
    (calculateSM2 ⟨5, 2, 27/10, 6⟩).interval = 17 ∧
    (calculateSM2 ⟨5, 0, DEFAULT_EASE_FACTOR, 0⟩).easeFactor = 26/10 ∧
    (calculateSM2 ⟨5, 1, 26/10, 1⟩).easeFactor = 27/10 ∧
    (calculateSM2 ⟨5, 2, 27/10, 6⟩).easeFactor = 28/10 ∧
    (17 : ℤ) = jsRound (6 * (28/10)) := by
  refine ⟨fun h => ?_, ?_⟩
  · simp only [calculateSM2, if_neg (not_lt.mpr h)]
    exact ⟨by trivial, by trivial⟩
  · refine ⟨?_, ?_, ?_, ?_, ?_, ?_, ?_⟩ <;>
      · simp [calculateSM2, clampQuality, jsRound, newEaseFactorOf, roundTo2,
          MIN_EASE_FACTOR, DEFAULT_EASE_FACTOR]
        norm_num

/-! ## Claim theorem C10 -/

/-- `jsRound` of anything at least `1.3` is at least 1. -/
theorem one_le_jsRound {x : ℚ} (h : 13/10 ≤ x) : 1 ≤ jsRound x := by
  rw [jsRound, Int.le_floor]
  push_cast
  linarith

/-- If `jsRound x = 0` then `x` lies in `[-1/2, 1/2)`. -/
theorem jsRound_eq_zero_bounds {x : ℚ} (h : jsRound x = 0) :
    -(1/2) ≤ x ∧ x < 1/2 := by
  rw [jsRound] at h
  have hb := Int.floor_eq_iff.mp h
  push_cast at hb
  exact ⟨by linarith [hb.1], by linarith [hb.2]⟩

/-- C10 (implicit): whenever the input interval is at least 1 or the input
repetition count is at most 1 (which covers every state reachable from a
fresh card), `calculateSM2` returns an interval of at least 1; and an output
interval of 0 can only arise from an input with interval 0 and at least 2
repetitions. -/
theorem C10_interval_at_least_one (input : SM2Input) :
    ((1 ≤ input.interval ∨ input.repetitions ≤ 1) →
      1 ≤ (calculateSM2 input).interval) ∧
    ((calculateSM2 input).interval = 0 →
      input.interval = 0 ∧ 2 ≤ input.repetitions) := by
  by_cases hq : clampQuality input.quality < 3
  · have hi : (calculateSM2 input).interval = 1 := by
      simp only [calculateSM2, if_pos hq]
    rw [hi]
    exact ⟨fun _ => le_refl 1, fun h => absurd h one_ne_zero⟩
  · have hi : (calculateSM2 input).interval =
        if input.repetitions + 1 = 1 then 1
        else if input.repetitions + 1 = 2 then 6
        else jsRound ((input.interval : ℚ) *
          newEaseFactorOf input.easeFactor (clampQuality input.quality)) := by
      simp only [calculateSM2, if_neg hq]
    rw [hi]
    by_cases h1 : input.repetitions + 1 = 1
    · rw [if_pos h1]
      exact ⟨fun _ => le_refl 1, fun h => absurd h one_ne_zero⟩
    · rw [if_neg h1]
      by_cases h2 : input.repetitions + 1 = 2
      · rw [if_pos h2]
        exact ⟨fun _ => by norm_num, fun h => absurd h (by norm_num)⟩
      · rw [if_neg h2]
        have hr2 : 2 ≤ input.repetitions := by omega
        have hef : (13 : ℚ)/10 ≤
            newEaseFactorOf input.easeFactor (clampQuality input.quality) := by
          have := min_ease_le_newEaseFactorOf input.easeFactor (clampQuality input.quality)
          rwa [MIN_EASE_FACTOR] at this
        constructor
        · rintro (hiv | hrle)
          · apply one_le_jsRound
            have hiv1 : (1 : ℚ) ≤ (input.interval : ℚ) := by exact_mod_cast hiv
            nlinarith
          · omega
        · intro h0
          refine ⟨?_, hr2⟩
          obtain ⟨hlo, hhi⟩ := jsRound_eq_zero_bounds h0
          by_contra hne
          rcases lt_or_gt_of_ne hne with hneg | hpos
          · have hle1 : (input.interval : ℚ) ≤ -1 := by
              exact_mod_cast (by omega : input.interval ≤ -1)
            nlinarith
          · have hge1 : (1 : ℚ) ≤ (input.interval : ℚ) := by
              exact_mod_cast (by omega : 1 ≤ input.interval)
            nlinarith

/-! ## Claim theorem C7 -/

/-- C7: `isDue` holds iff `nextReviewAt` is at or before 23:59:59.999 of the
reference day; exactly 23:59:59.999 is due and 00:00:00.000 of the next day
is not. -/
theorem C7_isDue_end_of_reference_day (nextReviewAt now : ℕ) :
    (isDue nextReviewAt now = true ↔
      nextReviewAt ≤ startOfDay now + (23 * 3600000 + 59 * 60000 + 59 * 1000 + 999)) ∧
    isDue (startOfDay now + (23 * 3600000 + 59 * 60000 + 59 * 1000 + 999)) now = true ∧
    isDue (startOfDay now + msPerDay) now = false := by
  have hms : 23 * 3600000 + 59 * 60000 + 59 * 1000 + 999 = msPerDay - 1 := by
    rw [msPerDay]
  refine ⟨?_, ?_, ?_⟩
  · rw [isDue, endOfDay, hms, decide_eq_true_iff]
  · rw [isDue, endOfDay, hms, decide_eq_true_iff]
  · rw [isDue, endOfDay, decide_eq_false_iff_not]
    rw [msPerDay]
    omega

/-! ## Claim theorem C8 -/

/-- C8: `averageRetention` is `round(100 * successfulReviews / totalReviews)`
with a review successful iff its quality is at least 3, and 0 when there are
no reviews; the ten qualities `[0,1,2,3,4,5,3,2,5,4]` yield 60. -/
theorem C8_averageRetention_formula (qualities : List ℤ) :
    averageRetention qualities =
      (if qualities.length = 0 then 0
       else jsRound (100 * (successfulReviews qualities : ℚ) / (qualities.length : ℚ))) ∧
    averageRetention [] = 0 ∧
    averageRetention [0, 1, 2, 3, 4, 5, 3, 2, 5, 4] = 60 := by
  refine ⟨?_, rfl, ?_⟩
  · by_cases h : qualities.length = 0
    · simp [averageRetention, h]
    · rw [averageRetention, if_pos (Nat.pos_of_ne_zero h), if_neg h]
      congr 1
      ring
  · have hs : successfulReviews [0, 1, 2, 3, 4, 5, 3, 2, 5, 4] = 6 := by decide
    rw [averageRetention, if_pos (by decide), hs]
    norm_num [jsRound]

/-! ## Claim theorem C9 -/

/-- C9: `resetCard` restores exactly the fresh-card defaults
(`easeFactor = 2.5`, `interval = 0`, `repetitions = 0`, `nextReviewAt = now`,
`lastReviewAt = null`), leaves the review records untouched, and a subsequent
review (in particular with quality 5) produces the same next state as a fresh
card's first review, whatever the card's pre-reset history was. -/
theorem C9_resetCard_restores_defaults (db : DBState) (now now2 : ℕ) (q : ℚ) :
    (resetCard db now).card.easeFactor = 5/2 ∧
    (resetCard db now).card.interval = 0 ∧
    (resetCard db now).card.repetitions = 0 ∧
    (resetCard db now).card.nextReviewAt = now ∧
    (resetCard db now).card.lastReviewAt = none ∧
    (resetCard db now).reviews = db.reviews ∧
    (resetCard db now).card = freshCardState now ∧
    calculateSM2 ⟨q, (resetCard db now).card.repetitions,
        (resetCard db now).card.easeFactor, (resetCard db now).card.interval⟩ =
      calculateSM2 ⟨q, 0, DEFAULT_EASE_FACTOR, 0⟩ ∧
    reviewCard (resetCard db now) 5 now2 =
      reviewCard ⟨freshCardState now, db.reviews⟩ 5 now2 :=
  ⟨rfl, rfl, rfl, rfl, rfl, rfl, rfl, rfl, rfl⟩

/-! ## Claim theorem C6 -/

/-- C6: the claim that a review commits record and card state atomically
fails on the code: the two writes are separate non-transactional calls, so
the run that is interrupted after `cardReview.create` leaves a review record
appended while the card's scheduling state is unchanged — a partial write
that is neither the initial nor the fully committed state. -/
theorem C6_reviewCard_partial_write_reachable :
    (reviewCardUpTo ⟨⟨5/2, 0, 0, 0, none⟩, []⟩ 5 0 1).reviews.length =
      (⟨⟨5/2, 0, 0, 0, none⟩, []⟩ : DBState).reviews.length + 1 ∧
    (reviewCardUpTo ⟨⟨5/2, 0, 0, 0, none⟩, []⟩ 5 0 1).card =
      (⟨⟨5/2, 0, 0, 0, none⟩, []⟩ : DBState).card ∧
    reviewCardUpTo ⟨⟨5/2, 0, 0, 0, none⟩, []⟩ 5 0 1 ≠
      reviewCard ⟨⟨5/2, 0, 0, 0, none⟩, []⟩ 5 0 ∧
    reviewCardUpTo ⟨⟨5/2, 0, 0, 0, none⟩, []⟩ 5 0 1 ≠ ⟨⟨5/2, 0, 0, 0, none⟩, []⟩ := by
  refine ⟨rfl, rfl, fun h => ?_, fun h => ?_⟩
  · exact Option.noConfusion (congrArg (fun s => s.card.lastReviewAt) h)
  · exact one_ne_zero (congrArg (fun s => s.reviews.length) h)

/-! ## Claim theorem C5 -/

/-- The longest-streak loop computes the running maximum of the
consecutive-day run lengths. -/
theorem longestLoop_max_eq (ds : List ℤ) : ∀ (prev : ℤ) (longest temp : ℕ),
    max (longestLoop prev longest temp ds).1 (longestLoop prev longest temp ds).2 =
      max longest ((runsFrom prev temp ds).foldr max 0) := by
  induction ds with
  | nil => intro prev longest temp; simp [longestLoop, runsFrom]
  | cons d rest ih =>
    intro prev longest temp
    by_cases h : prev - d = 1
    · simp only [longestLoop, runsFrom, if_pos h]
      exact ih d longest (temp + 1)
    · simp only [longestLoop, runsFrom, if_neg h, List.foldr_cons]
      rw [ih d (max longest temp) 1]
      exact Nat.max_assoc longest temp _

/-- The current run never exceeds the maximum run. -/
theorem streakRun_le (ds : List ℤ) : ∀ (prev : ℤ) (temp : ℕ),
    temp + streakRun prev ds ≤ (runsFrom prev temp ds).foldr max 0 := by
  induction ds with
  | nil => intro prev temp; simp [streakRun, runsFrom]
  | cons d rest ih =>
    intro prev temp
    by_cases h : prev - d = 1
    · simp only [streakRun, runsFrom, if_pos h]
      have := ih d (temp + 1)
      omega
    · simp only [streakRun, runsFrom, if_neg h, List.foldr_cons, Nat.add_zero]
      exact Nat.le_max_left _ _

/-- C5: streaks are computed from the calendar dates of session starts:
`currentStreak` is 0 unless the most recent study date is today or yesterday,
and when active counts backward over consecutive dates; `longestStreak` is
the maximum consecutive-day run over the whole date list; no sessions give
`(0, 0)`; dates `D, D-1, D-2` with `D` = today give a current streak of 3,
and dates `D-5, D-6, D-7` give current streak 0 and longest streak 3. -/
theorem C5_streaks_from_session_dates (dates : List ℤ) (today : ℤ) :
    calculateStreaks [] today = (0, 0) ∧
    (∀ d0 rest, d0 ≠ today → d0 ≠ today - 1 →
      (calculateStreaks (d0 :: rest) today).1 = 0) ∧
    (∀ d0 rest, d0 = today ∨ d0 = today - 1 →
      (calculateStreaks (d0 :: rest) today).1 = 1 + streakRun d0 rest) ∧
    (calculateStreaks dates today).2 = maxRun dates ∧
    calculateStreaks [100, 99, 98] 100 = (3, 3) ∧
    calculateStreaks [95, 94, 93] 100 = (0, 3) := by
  refine ⟨rfl, ?_, ?_, ?_, by decide, by decide⟩
  · intro d0 rest h1 h2
    simp only [calculateStreaks]
    rw [if_neg (fun h => h.elim h1 h2)]
  · intro d0 rest h
    simp only [calculateStreaks]
    rw [if_pos h]
  · cases dates with
    | nil => rfl
    | cons d0 rest =>
      simp only [calculateStreaks, maxRun]
      rw [longestLoop_max_eq rest d0 0 1, Nat.zero_max]
      apply max_eq_left
      split_ifs with hc
      · exact streakRun_le rest d0 1
      · exact Nat.zero_le _

/-! ## Claim theorem C4 -/

/-- Inserting into a sorted list is a permutation of consing. -/
theorem insertByKey_perm (key : PoolCard → ℕ) (c : PoolCard) :
    ∀ l : List PoolCard, (insertByKey key c l).Perm (c :: l) := by
  intro l
  induction l with
  | nil => exact List.Perm.refl _
  | cons d ds ih =>
    simp only [insertByKey]
    split_ifs with h
    · exact (ih.cons d).trans (List.Perm.swap c d ds)
    · exact List.Perm.refl _

/-- The sort used for the prisma `orderBy` reads permutes its input. -/
theorem sortByKey_perm (key : PoolCard → ℕ) :
    ∀ l : List PoolCard, (sortByKey key l).Perm l := by
  intro l
  induction l with
  | nil => exact List.Perm.refl _
  | cons c cs ih =>
    exact (insertByKey_perm key c (sortByKey key cs)).trans (ih.cons c)

/-- Replacing position `k` by `x` while consing the old element on front is a
permutation of consing `x`. -/
theorem cons_set_perm {α : Type} (x : α) : ∀ (t : List α) (k : ℕ) (hk : k < t.length),
    (t.get ⟨k, hk⟩ :: t.set k x).Perm (x :: t) := by
  intro t
  induction t with
  | nil => intro k hk; exact absurd hk (Nat.not_lt_zero k)
  | cons y t' ih =>
    intro k hk
    cases k with
    | zero => exact List.Perm.swap x y t'
    | succ m =>
      have hm : m < t'.length := Nat.lt_of_succ_lt_succ hk
      show (t'.get ⟨m, hm⟩ :: y :: t'.set m x).Perm (x :: y :: t')
      exact (List.Perm.swap y _ _).trans (((ih m hm).cons y).trans (List.Perm.swap x y t'))

/-- Exchanging the elements at two positions permutes the list. -/
theorem set_set_perm {α : Type} :
    ∀ (l : List α) (i j : ℕ) (hi : i < l.length) (hj : j < l.length),
    ((l.set i (l.get ⟨j, hj⟩)).set j (l.get ⟨i, hi⟩)).Perm l := by
  intro l
  induction l with
  | nil => intro i j hi hj; exact absurd hi (Nat.not_lt_zero i)
  | cons x t ih =>
    intro i j hi hj
    cases i with
    | zero =>
      cases j with
      | zero => exact List.Perm.refl (x :: t)
      | succ m =>
        have hm : m < t.length := Nat.lt_of_succ_lt_succ hj
        show (t.get ⟨m, hm⟩ :: t.set m x).Perm (x :: t)
        exact cons_set_perm x t m hm
    | succ k =>
      have hk : k < t.length := Nat.lt_of_succ_lt_succ hi
      cases j with
      | zero =>
        show (t.get ⟨k, hk⟩ :: t.set k x).Perm (x :: t)
        exact cons_set_perm x t k hk
      | succ m =>
        have hm : m < t.length := Nat.lt_of_succ_lt_succ hj
        show (x :: (t.set k (t.get ⟨m, hm⟩)).set m (t.get ⟨k, hk⟩)).Perm (x :: t)
        exact (ih k m hk hm).cons x

/-- A single JS destructuring swap permutes the list. -/
theorem listSwap_perm {α : Type} (l : List α) (i j : ℕ) : (listSwap l i j).Perm l := by
  cases h1 : l[i]? with
  | none => simp [listSwap, h1]
  | some a =>
    cases h2 : l[j]? with
    | none => simp [listSwap, h1, h2]
    | some b =>
      obtain ⟨hi, ha⟩ := List.getElem?_eq_some.mp h1
      obtain ⟨hj, hb⟩ := List.getElem?_eq_some.mp h2
      simp only [listSwap, h1, h2]
      rw [← ha, ← hb]
      exact set_set_perm l i j hi hj

/-- The Fisher-Yates loop permutes the list, for every draw sequence. -/
theorem shuffleGo_perm {α : Type} (rand : ℕ → ℕ) :
    ∀ (n : ℕ) (l : List α), (shuffleGo rand n l).Perm l := by
  intro n
  induction n with
  | zero => intro l; exact List.Perm.refl l
  | succ i ih =>
    intro l
    exact (ih _).trans (listSwap_perm l (i + 1) (rand (i + 1) % (i + 2)))

/-- `shuffleArray` returns a permutation of its input. -/
theorem shuffleArray_perm {α : Type} (rand : ℕ → ℕ) (l : List α) :
    (shuffleArray rand l).Perm l :=
  shuffleGo_perm rand (l.length - 1) l

/-- The new-card selection respects the `floor(limit / 3)` quota. -/
theorem newCardsOf_length_le (pool : List PoolCard) (limit : ℕ) :
    (newCardsOf pool limit).length ≤ limit / 3 := by
  rw [newCardsOf, List.length_take]
  exact Nat.min_le_left _ _

/-- The due-card selection respects the remaining quota. -/
theorem dueCardsOf_length_le (pool : List PoolCard) (limit now k : ℕ) :
    (dueCardsOf pool limit now k).length ≤ limit - k := by
  rw [dueCardsOf, List.length_take]
  exact Nat.min_le_left _ _

/-- Selected new cards come from the pool. -/
theorem mem_newCardsOf {c : PoolCard} {pool : List PoolCard} {limit : ℕ}
    (h : c ∈ newCardsOf pool limit) : c ∈ pool := by
  rw [newCardsOf] at h
  have h2 := List.take_subset _ _ h
  have h3 := ((sortByKey_perm PoolCard.createdAt _).mem_iff).mp h2
  exact List.mem_of_mem_filter h3

/-- Selected due cards come from the pool. -/
theorem mem_dueCardsOf {c : PoolCard} {pool : List PoolCard} {limit now k : ℕ}
    (h : c ∈ dueCardsOf pool limit now k) : c ∈ pool := by
  rw [dueCardsOf] at h
  have h2 := List.take_subset _ _ h
  have h3 := ((sortByKey_perm PoolCard.nextReviewAt _).mem_iff).mp h2
  exact List.mem_of_mem_filter h3

/-- Insertion keeps a key-sorted list sorted. -/
theorem insertByKey_sorted (key : PoolCard → ℕ) (c : PoolCard) :
    ∀ {l : List PoolCard}, List.Sorted (fun a b => key a ≤ key b) l →
      List.Sorted (fun a b => key a ≤ key b) (insertByKey key c l) := by
  intro l
  induction l with
  | nil => intro _; simp [insertByKey]
  | cons d ds ih =>
    intro h
    rw [List.sorted_cons] at h
    obtain ⟨hd, hds⟩ := h
    simp only [insertByKey]
    split_ifs with hk
    · rw [List.sorted_cons]
      refine ⟨?_, ih hds⟩
      intro b hb
      rcases List.mem_cons.mp ((insertByKey_perm key c ds).mem_iff.mp hb) with rfl | hbds
      · exact hk
      · exact hd b hbds
    · rw [List.sorted_cons]
      constructor
      · intro b hb
        rcases List.mem_cons.mp hb with rfl | hbds
        · exact Nat.le_of_lt (Nat.lt_of_not_le hk)
        · exact le_trans (Nat.le_of_lt (Nat.lt_of_not_le hk)) (hd b hbds)
      · rw [List.sorted_cons]
        exact ⟨hd, hds⟩

/-- The `orderBy ... asc` model indeed sorts ascending by the key. -/
theorem sortByKey_sorted (key : PoolCard → ℕ) :
    ∀ l : List PoolCard, List.Sorted (fun a b => key a ≤ key b) (sortByKey key l) := by
  intro l
  induction l with
  | nil => simp [sortByKey]
  | cons c cs ih => exact insertByKey_sorted key c ih

/-- The selected new cards are in creation order (oldest first). -/
theorem newCardsOf_sorted (pool : List PoolCard) (limit : ℕ) :
    List.Sorted (fun a b => a.createdAt ≤ b.createdAt) (newCardsOf pool limit) :=
  (sortByKey_sorted PoolCard.createdAt _).sublist (List.take_sublist _ _)

/-- The selected due cards are in `nextReviewAt` order (most overdue first). -/
theorem dueCardsOf_sorted (pool : List PoolCard) (limit now k : ℕ) :
    List.Sorted (fun a b => a.nextReviewAt ≤ b.nextReviewAt)
      (dueCardsOf pool limit now k) :=
  (sortByKey_sorted PoolCard.nextReviewAt _).sublist (List.take_sublist _ _)

/-- Every selected new card has `repetitions = 0`. -/
theorem newCardsOf_new {c : PoolCard} {pool : List PoolCard} {limit : ℕ}
    (h : c ∈ newCardsOf pool limit) : c.repetitions = 0 := by
  rw [newCardsOf] at h
  have h2 := ((sortByKey_perm PoolCard.createdAt _).mem_iff).mp (List.take_subset _ _ h)
  exact of_decide_eq_true (List.mem_filter.mp h2).2

/-- Every selected due card has been reviewed and is due by end of day. -/
theorem dueCardsOf_due {c : PoolCard} {pool : List PoolCard} {limit now k : ℕ}
    (h : c ∈ dueCardsOf pool limit now k) :
    0 < c.repetitions ∧ c.nextReviewAt ≤ endOfDay now := by
  rw [dueCardsOf] at h
  have h2 := ((sortByKey_perm PoolCard.nextReviewAt _).mem_iff).mp (List.take_subset _ _ h)
  exact of_decide_eq_true (List.mem_filter.mp h2).2

/-- C4: `getDueCards` selects at most `floor(limit / 3)` new cards, then due
cards capped at `limit` minus the new cards actually selected, so it never
returns more than `limit` cards and only cards of the requested pool; the
returned list is a shuffled permutation of the selection; with `limit = 9`
and a pool of 2 new plus 10 due cards it selects exactly 2 new and 7 due
cards. -/
theorem C4_getDueCards_quota_and_limit (pool : List PoolCard) (limit now : ℕ)
    (rand : ℕ → ℕ) :
    (newCardsOf pool limit).length ≤ limit / 3 ∧
    (dueCardsOf pool limit now (newCardsOf pool limit).length).length ≤
      limit - (newCardsOf pool limit).length ∧
    (getDueCards pool limit now rand).Perm
      (newCardsOf pool limit ++
        dueCardsOf pool limit now (newCardsOf pool limit).length) ∧
    (getDueCards pool limit now rand).length ≤ limit ∧
    (∀ c ∈ getDueCards pool limit now rand, c ∈ pool) ∧
    List.Sorted (fun a b => a.createdAt ≤ b.createdAt) (newCardsOf pool limit) ∧
    (∀ c ∈ newCardsOf pool limit, c.repetitions = 0) ∧
    List.Sorted (fun a b => a.nextReviewAt ≤ b.nextReviewAt)
      (dueCardsOf pool limit now (newCardsOf pool limit).length) ∧
    (∀ c ∈ dueCardsOf pool limit now (newCardsOf pool limit).length,
      0 < c.repetitions ∧ c.nextReviewAt ≤ endOfDay now) ∧
    (newCardsOf examplePool 9).length = 2 ∧
    (dueCardsOf examplePool 9 0 2).length = 7 ∧
    (getDueCards examplePool 9 0 (fun _ => 0)).length = 9 := by
  have hperm : (getDueCards pool limit now rand).Perm
      (newCardsOf pool limit ++
        dueCardsOf pool limit now (newCardsOf pool limit).length) :=
    shuffleArray_perm rand _
  have hnew := newCardsOf_length_le pool limit
  have hdue := dueCardsOf_length_le pool limit now (newCardsOf pool limit).length
  have hlen : (getDueCards pool limit now rand).length =
      (newCardsOf pool limit).length +
        (dueCardsOf pool limit now (newCardsOf pool limit).length).length := by
    rw [hperm.length_eq, List.length_append]
  refine ⟨hnew, hdue, hperm, ?_, ?_, newCardsOf_sorted pool limit,
    fun c hc => newCardsOf_new hc, dueCardsOf_sorted pool limit now _,
    fun c hc => dueCardsOf_due hc, by decide, by decide, by decide⟩
  · have h3 := Nat.div_le_self limit 3
    omega
  · intro c hc
    rcases List.mem_append.mp (hperm.mem_iff.mp hc) with h | h
    · exact mem_newCardsOf h
    · exact mem_dueCardsOf h
